import Mathlib

/- Verification of the PPO training core of the Urban_Design repository:
   experience memory, GAE computation, learning-rate annealing, the policy
   update engine, the rollout worker message protocol, and the coordinator
   update cadence.  Numeric values are modelled by rationals; Python booleans
   used in arithmetic are modelled by an explicit 0/1 indicator. -/

namespace UrbanPPO

/-- Indicator value of a boolean, as used by Python arithmetic on bools
(True is 1, False is 0). -/
def bval (b : Bool) : ℚ := if b then 1 else 0

/-- Body of the reversed loop in PPO.compute_gae (ppo_alg.py lines 108-121):
given the loop index step and the running accumulator gae, produce the new
value of gae, which is also the advantage recorded at index step.  The first
branch models the source condition
(is_terminals[step] or step == len(rewards) - 1), which zeroes both the
bootstrap value and the running accumulator. -/
def gae_step (gamma gae_lambda : ℚ) (rewards values : List ℚ)
    (is_terminals : List Bool) (n step : ℕ) (gae : ℚ) : ℚ :=
  let next_value : ℚ :=
    if is_terminals.getD step false = true ∨ step = n - 1 then 0
    else values.getD (step + 1) 0
  let gae0 : ℚ :=
    if is_terminals.getD step false = true ∨ step = n - 1 then 0 else gae
  let delta : ℚ := rewards.getD step 0
    + gamma * next_value * (1 - bval (is_terminals.getD step false))
    - values.getD step 0
  delta + gamma * gae_lambda * (1 - bval (is_terminals.getD step false)) * gae0

/-- The reversed accumulation loop of PPO.compute_gae: the first numeric
argument after n is the number of loop indices still to process (indices
k-1 down to 0), then the running accumulator gae, then the advantage list
built so far by insertion at the front. -/
def gae_loop (gamma gae_lambda : ℚ) (rewards values : List ℚ)
    (is_terminals : List Bool) (n : ℕ) : ℕ → ℚ → List ℚ → List ℚ
  | 0, _, advantages => advantages
  | step + 1, gae, advantages =>
    let gae1 := gae_step gamma gae_lambda rewards values is_terminals n step gae
    gae_loop gamma gae_lambda rewards values is_terminals n step gae1
      (gae1 :: advantages)

/-- Shallow embedding of PPO.compute_gae (ppo_alg.py lines 97-123): iterate
over the indices of the reward list in reverse order, starting with
accumulator 0 and an empty advantage list. -/
def compute_gae (gamma gae_lambda : ℚ) (rewards values : List ℚ)
    (is_terminals : List Bool) : List ℚ :=
  gae_loop gamma gae_lambda rewards values is_terminals
    rewards.length rewards.length 0 []

theorem gae_loop_append (gamma gae_lambda : ℚ) (rewards values : List ℚ)
    (is_terminals : List Bool) (n k : ℕ) (g : ℚ) (acc : List ℚ) :
    gae_loop gamma gae_lambda rewards values is_terminals n k g acc =
      gae_loop gamma gae_lambda rewards values is_terminals n k g [] ++ acc := by
  induction k generalizing g acc with
  | zero => simp [gae_loop]
  | succ k ih =>
    simp only [gae_loop]
    rw [ih, ih _ [_]]
    simp

theorem gae_loop_length (gamma gae_lambda : ℚ) (rewards values : List ℚ)
    (is_terminals : List Bool) (n k : ℕ) (g : ℚ) :
    (gae_loop gamma gae_lambda rewards values is_terminals n k g []).length = k := by
  induction k generalizing g with
  | zero => rfl
  | succ k ih =>
    simp only [gae_loop]
    rw [gae_loop_append]
    simp [ih]

theorem gae_loop_getD_last (gamma gae_lambda : ℚ) (rewards values : List ℚ)
    (is_terminals : List Bool) (n k : ℕ) (g : ℚ) (hk : 0 < k) :
    (gae_loop gamma gae_lambda rewards values is_terminals n k g []).getD (k - 1) 0 =
      gae_step gamma gae_lambda rewards values is_terminals n (k - 1) g := by
  cases k with
  | zero => omega
  | succ m =>
    simp only [gae_loop]
    rw [gae_loop_append]
    rw [List.getD_append_right _ _ _ _ (by rw [gae_loop_length]; omega)]
    rw [gae_loop_length]
    simp

theorem gae_loop_getD_rec (gamma gae_lambda : ℚ) (rewards values : List ℚ)
    (is_terminals : List Bool) (n k : ℕ) (g : ℚ) (i : ℕ) (hik : i + 1 < k) :
    (gae_loop gamma gae_lambda rewards values is_terminals n k g []).getD i 0 =
      gae_step gamma gae_lambda rewards values is_terminals n i
        ((gae_loop gamma gae_lambda rewards values is_terminals n k g []).getD (i + 1) 0) := by
  induction k generalizing g with
  | zero => omega
  | succ k ih =>
    simp only [gae_loop]
    rw [gae_loop_append]
    rcases Nat.lt_succ_iff_lt_or_eq.mp hik with h | h
    · rw [List.getD_append _ _ _ _ (by rw [gae_loop_length]; omega)]
      rw [List.getD_append _ _ _ _ (by rw [gae_loop_length]; omega)]
      exact ih _ h
    · have hk : k = i + 1 := h.symm
      subst hk
      rw [List.getD_append _ _ _ _ (by rw [gae_loop_length]; omega)]
      rw [List.getD_append_right _ _ _ _ (by rw [gae_loop_length])]
      rw [gae_loop_length]
      simp only [Nat.sub_self, List.getD_cons_zero]
      have := gae_loop_getD_last gamma gae_lambda rewards values is_terminals n (i + 1)
        (gae_step gamma gae_lambda rewards values is_terminals n (i + 1) g) (by omega)
      simpa using this

theorem compute_gae_length (gamma gae_lambda : ℚ) (rewards values : List ℚ)
    (is_terminals : List Bool) :
    (compute_gae gamma gae_lambda rewards values is_terminals).length = rewards.length :=
  gae_loop_length gamma gae_lambda rewards values is_terminals _ _ 0

theorem compute_gae_getD (gamma gae_lambda : ℚ) (rewards values : List ℚ)
    (is_terminals : List Bool) (i : ℕ) (hi : i < rewards.length) :
    (compute_gae gamma gae_lambda rewards values is_terminals).getD i 0 =
      gae_step gamma gae_lambda rewards values is_terminals rewards.length i
        ((compute_gae gamma gae_lambda rewards values is_terminals).getD (i + 1) 0) := by
  by_cases h : i + 1 < rewards.length
  · exact gae_loop_getD_rec gamma gae_lambda rewards values is_terminals _ _ 0 i h
  · have hi1 : i = rewards.length - 1 := by omega
    have hz : (compute_gae gamma gae_lambda rewards values is_terminals).getD (i + 1) 0 = 0 :=
      List.getD_eq_default _ _ (by rw [compute_gae_length]; omega)
    rw [hz]
    have := gae_loop_getD_last gamma gae_lambda rewards values is_terminals
      rewards.length rewards.length 0 (by omega)
    rw [← hi1] at this
    exact this

/-- Congruence for one GAE loop step: two step computations agree whenever
the list lookups they perform agree, their reset conditions are equivalent,
and (when no reset happens) the bootstrap values and incoming accumulators
agree. -/
theorem gae_step_eq_of (gamma gae_lambda : ℚ)
    (R1 V1 : List ℚ) (T1 : List Bool) (n1 s1 : ℕ) (g1 : ℚ)
    (R2 V2 : List ℚ) (T2 : List Bool) (n2 s2 : ℕ) (g2 : ℚ)
    (hR : R1.getD s1 0 = R2.getD s2 0)
    (hV : V1.getD s1 0 = V2.getD s2 0)
    (hT : T1.getD s1 false = T2.getD s2 false)
    (hreset : (T1.getD s1 false = true ∨ s1 = n1 - 1) ↔
      (T2.getD s2 false = true ∨ s2 = n2 - 1))
    (hnext : ¬(T1.getD s1 false = true ∨ s1 = n1 - 1) →
      V1.getD (s1 + 1) 0 = V2.getD (s2 + 1) 0)
    (hg : ¬(T1.getD s1 false = true ∨ s1 = n1 - 1) → g1 = g2) :
    gae_step gamma gae_lambda R1 V1 T1 n1 s1 g1 =
      gae_step gamma gae_lambda R2 V2 T2 n2 s2 g2 := by
  by_cases h : T1.getD s1 false = true ∨ s1 = n1 - 1
  · have h2 := hreset.mp h
    simp only [gae_step]
    simp only [if_pos h, if_pos h2]
    rw [hR, hV, hT]
  · have h2 : ¬(T2.getD s2 false = true ∨ s2 = n2 - 1) := fun x => h (hreset.mpr x)
    simp only [gae_step]
    simp only [if_neg h, if_neg h2]
    rw [hR, hV, hT, hnext h, hg h]

/-- C1: PPO.compute_gae produces one advantage per reward by processing
indices n-1 down to 0 with a running accumulator gae: the incoming
accumulator at index i is the advantage recorded at index i+1 (0 beyond the
end), it is reset to 0 when T[i] is true or i is the last index, in which
case the bootstrap next-value is also 0, and otherwise the bootstrap
next-value is V[i+1]; then delta = R[i] + gamma*next_value*(1-T[i]) - V[i]
and advantage[i] = delta + gamma*lambda*(1-T[i])*gae. -/
theorem C1_compute_gae_reverse_recurrence (gamma gae_lambda : ℚ)
    (rewards values : List ℚ) (is_terminals : List Bool)
    (hV : values.length = rewards.length)
    (hT : is_terminals.length = rewards.length) :
    (compute_gae gamma gae_lambda rewards values is_terminals).length = rewards.length ∧
    ∀ i, i < rewards.length →
      (compute_gae gamma gae_lambda rewards values is_terminals).getD i 0 =
        (rewards.getD i 0
            + gamma * (if is_terminals.getD i false = true ∨ i = rewards.length - 1
                then 0 else values.getD (i + 1) 0)
              * (1 - bval (is_terminals.getD i false))
            - values.getD i 0)
          + gamma * gae_lambda * (1 - bval (is_terminals.getD i false))
            * (if is_terminals.getD i false = true ∨ i = rewards.length - 1
                then 0
                else (compute_gae gamma gae_lambda rewards values is_terminals).getD
                  (i + 1) 0) := by
  refine ⟨compute_gae_length _ _ _ _ _, fun i hi => ?_⟩
  rw [compute_gae_getD gamma gae_lambda rewards values is_terminals i hi]
  by_cases h : is_terminals.getD i false = true ∨ i = rewards.length - 1
  · simp only [gae_step, if_pos h]
  · simp only [gae_step, if_neg h]

/-- Witness for C1 at a concrete input. -/
theorem C1_compute_gae_reverse_recurrence_witness :
    (compute_gae (1/2) (1/3) [1, 2] [3, 4] [false, true]).length = [1, (2 : ℚ)].length :=
  (C1_compute_gae_reverse_recurrence (1/2) (1/3) [1, 2] [3, 4] [false, true] rfl rfl).1

/-- C10: compute_gae is total on the empty batch: zero-length inputs give
the empty advantage list, with no index access performed. -/
theorem C10_compute_gae_empty (gamma gae_lambda : ℚ) :
    compute_gae gamma gae_lambda [] [] [] = [] := rfl

/-- C3: for every pair of buffers A and B, if the boundary (the last
position of A) is marked terminal, compute_gae on the concatenation A ++ B
is exactly the concatenation of compute_gae on A alone and compute_gae on
B alone. -/
theorem C3_compute_gae_concat_terminal_boundary (gamma gae_lambda : ℚ)
    (RA VA RB VB : List ℚ) (TA TB : List Bool)
    (hVA : VA.length = RA.length) (hTA : TA.length = RA.length)
    (hVB : VB.length = RB.length) (hTB : TB.length = RB.length)
    (hterm : TA.getD (RA.length - 1) false = true) :
    compute_gae gamma gae_lambda (RA ++ RB) (VA ++ VB) (TA ++ TB) =
      compute_gae gamma gae_lambda RA VA TA ++
        compute_gae gamma gae_lambda RB VB TB := by
  have hA0 : 0 < RA.length := by
    by_contra h0
    have hTAnil : TA = [] := List.eq_nil_of_length_eq_zero (by omega)
    rw [hTAnil] at hterm
    simp [List.getD] at hterm
  have hlenAB : (RA ++ RB).length = RA.length + RB.length := List.length_append _ _
  have key : ∀ d i, i + d = RA.length + RB.length →
      (compute_gae gamma gae_lambda (RA ++ RB) (VA ++ VB) (TA ++ TB)).getD i 0 =
        (compute_gae gamma gae_lambda RA VA TA ++
          compute_gae gamma gae_lambda RB VB TB).getD i 0 := by
    intro d
    induction d with
    | zero =>
      intro i hi
      rw [List.getD_eq_default _ _ (by rw [compute_gae_length, hlenAB]; omega),
        List.getD_eq_default _ _
          (by rw [List.length_append, compute_gae_length, compute_gae_length]; omega)]
    | succ d ih =>
      intro i hi
      have hin : i < (RA ++ RB).length := by rw [hlenAB]; omega
      rw [compute_gae_getD _ _ _ _ _ i hin]
      by_cases hiA : i < RA.length
      · rw [List.getD_append _ _ _ _ (by rw [compute_gae_length]; exact hiA)]
        rw [compute_gae_getD gamma gae_lambda RA VA TA i hiA]
        rw [ih (i + 1) (by omega)]
        have hTeq : (TA ++ TB).getD i false = TA.getD i false :=
          List.getD_append _ _ _ _ (by omega)
        have hnA1 : i = RA.length - 1 → TA.getD i false = true := fun hx => hx ▸ hterm
        apply gae_step_eq_of
        · exact List.getD_append _ _ _ _ hiA
        · exact List.getD_append _ _ _ _ (by omega)
        · exact hTeq
        · rw [hTeq]
          constructor
          · rintro (hx | hx)
            · exact Or.inl hx
            · by_cases hi1 : i = RA.length - 1
              · exact Or.inl (hnA1 hi1)
              · exact absurd hx (by rw [hlenAB]; omega)
          · rintro (hx | hx)
            · exact Or.inl hx
            · exact Or.inl (hnA1 hx)
        · intro hnr
          rw [hTeq] at hnr
          have hi1 : i + 1 < RA.length := by
            by_cases hi2 : i = RA.length - 1
            · exact absurd (Or.inl (hnA1 hi2)) hnr
            · omega
          exact List.getD_append _ _ _ _ (by omega)
        · intro hnr
          rw [hTeq] at hnr
          have hi1 : i + 1 < RA.length := by
            by_cases hi2 : i = RA.length - 1
            · exact absurd (Or.inl (hnA1 hi2)) hnr
            · omega
          exact List.getD_append _ _ _ _ (by rw [compute_gae_length]; omega)
      · have hge : RA.length ≤ i := by omega
        rw [List.getD_append_right _ _ _ _ (by rw [compute_gae_length]; exact hge)]
        rw [compute_gae_length]
        rw [compute_gae_getD gamma gae_lambda RB VB TB (i - RA.length)
          (by rw [hlenAB] at hin; omega)]
        rw [ih (i + 1) (by omega)]
        have hTeq : (TA ++ TB).getD i false = TB.getD (i - RA.length) false := by
          rw [List.getD_append_right _ _ _ _ (by omega), hTA]
        apply gae_step_eq_of
        · exact List.getD_append_right _ _ _ _ hge
        · rw [List.getD_append_right _ _ _ _ (by omega), hVA]
        · exact hTeq
        · rw [hTeq, hlenAB]
          rw [hlenAB] at hin
          constructor
          · rintro (hx | hx)
            · exact Or.inl hx
            · exact Or.inr (by omega)
          · rintro (hx | hx)
            · exact Or.inl hx
            · exact Or.inr (by omega)
        · intro _
          rw [List.getD_append_right _ _ _ _ (by omega), hVA,
            show i + 1 - RA.length = i - RA.length + 1 by omega]
        · intro _
          rw [List.getD_append_right _ _ _ _ (by rw [compute_gae_length]; omega),
            compute_gae_length,
            show i + 1 - RA.length = i - RA.length + 1 by omega]
  apply List.ext_getElem
  · rw [compute_gae_length, hlenAB, List.length_append, compute_gae_length,
      compute_gae_length]
  · intro i h1 h2
    rw [compute_gae_length, hlenAB] at h1
    have hk := key (RA.length + RB.length - i) i (by omega)
    rwa [List.getD_eq_getElem _ _ (by rw [compute_gae_length, hlenAB]; omega),
      List.getD_eq_getElem _ _ (by exact h2)] at hk

/-- Witness for C3 at a concrete input: a two-step buffer ending in a
terminal transition concatenated with a one-step buffer. -/
theorem C3_compute_gae_concat_terminal_boundary_witness :
    compute_gae (99/100) (19/20) ([1, 2] ++ [3]) ([5, 6] ++ [7])
        ([false, true] ++ [false]) =
      compute_gae (99/100) (19/20) [1, 2] [5, 6] [false, true] ++
        compute_gae (99/100) (19/20) [3] [7] [false] :=
  C3_compute_gae_concat_terminal_boundary (99/100) (19/20)
    [1, 2] [5, 6] [3] [7] [false, true] [false] rfl rfl rfl rfl rfl

/-- Shallow embedding of the Memory class (ppo_alg.py lines 5-32): five
parallel lists of per-step data.  States, actions and log-probabilities are
opaque to this development, so their element types are type parameters. -/
structure Memory (S A L : Type) where
  actions : List A
  states : List S
  logprobs : List L
  rewards : List ℚ
  is_terminals : List Bool

/-- Memory constructor: all five lists start empty. -/
def Memory.empty (S A L : Type) : Memory S A L := ⟨[], [], [], [], []⟩

/-- Memory.append (ppo_alg.py lines 17-25): push one transition onto the
end of each of the five lists. -/
def Memory.push {S A L : Type} (m : Memory S A L) (state : S) (action : A)
    (logprob : L) (reward : ℚ) (done : Bool) : Memory S A L where
  actions := m.actions ++ [action]
  states := m.states ++ [state]
  logprobs := m.logprobs ++ [logprob]
  rewards := m.rewards ++ [reward]
  is_terminals := m.is_terminals ++ [done]

/-- Memory.clear_memory (ppo_alg.py lines 27-32): delete the contents of
all five lists. -/
def Memory.clear_memory {S A L : Type} (_ : Memory S A L) : Memory S A L :=
  ⟨[], [], [], [], []⟩

/-- One pass of the combining loop in PPO.update (ppo_alg.py lines 135-140):
extend each list of the combined memory with the corresponding list of one
incoming memory. -/
def Memory.extendWith {S A L : Type} (combined m : Memory S A L) :
    Memory S A L where
  actions := combined.actions ++ m.actions
  states := combined.states ++ m.states
  logprobs := combined.logprobs ++ m.logprobs
  rewards := combined.rewards ++ m.rewards
  is_terminals := combined.is_terminals ++ m.is_terminals

/-- The combining loop of PPO.update (ppo_alg.py lines 134-140): fold all
incoming memories into a fresh combined memory. -/
def combine_memories {S A L : Type} (memories : List (Memory S A L)) :
    Memory S A L :=
  memories.foldl Memory.extendWith (Memory.empty S A L)

/-- Well-formedness of a memory: the five parallel lists have equal
length. -/
def Memory.wf {S A L : Type} (m : Memory S A L) : Prop :=
  m.actions.length = m.states.length ∧ m.logprobs.length = m.states.length ∧
  m.rewards.length = m.states.length ∧ m.is_terminals.length = m.states.length

theorem combine_memories_foldl {S A L : Type} (memories : List (Memory S A L))
    (acc : Memory S A L) :
    (memories.foldl Memory.extendWith acc).actions
        = acc.actions ++ (memories.map Memory.actions).flatten ∧
      (memories.foldl Memory.extendWith acc).states
        = acc.states ++ (memories.map Memory.states).flatten ∧
      (memories.foldl Memory.extendWith acc).logprobs
        = acc.logprobs ++ (memories.map Memory.logprobs).flatten ∧
      (memories.foldl Memory.extendWith acc).rewards
        = acc.rewards ++ (memories.map Memory.rewards).flatten ∧
      (memories.foldl Memory.extendWith acc).is_terminals
        = acc.is_terminals ++ (memories.map Memory.is_terminals).flatten := by
  induction memories generalizing acc with
  | nil => simp
  | cons m rest ih =>
    obtain ⟨h1, h2, h3, h4, h5⟩ := ih (acc.extendWith m)
    simp only [Memory.extendWith] at h1 h2 h3 h4 h5
    refine ⟨?_, ?_, ?_, ?_, ?_⟩ <;>
      simp [List.foldl_cons, Memory.extendWith, h1, h2, h3, h4, h5]

theorem combine_memories_fields {S A L : Type} (memories : List (Memory S A L)) :
    (combine_memories memories).actions = (memories.map Memory.actions).flatten ∧
      (combine_memories memories).states = (memories.map Memory.states).flatten ∧
      (combine_memories memories).logprobs = (memories.map Memory.logprobs).flatten ∧
      (combine_memories memories).rewards = (memories.map Memory.rewards).flatten ∧
      (combine_memories memories).is_terminals
        = (memories.map Memory.is_terminals).flatten := by
  have h := combine_memories_foldl memories (Memory.empty S A L)
  simpa [Memory.empty] using h

theorem combine_memories_wf {S A L : Type} (memories : List (Memory S A L))
    (hwf : ∀ m ∈ memories, m.wf) : (combine_memories memories).wf := by
  obtain ⟨h1, h2, h3, h4, h5⟩ := combine_memories_fields memories
  refine ⟨?_, ?_, ?_, ?_⟩ <;>
    rw [h2] <;> [rw [h1]; rw [h3]; rw [h4]; rw [h5]] <;>
    · simp only [List.length_flatten, List.map_map]
      apply congrArg
      apply List.map_congr_left
      intro m hm
      obtain ⟨w1, w2, w3, w4⟩ := hwf m hm
      simp [Function.comp, w1, w2, w3, w4]

/-- C9: the Memory buffer keeps its five parallel lists at equal length:
append extends each list by exactly one element at the end preserving order,
clear_memory resets all five lists to empty, and the combining loop of
PPO.update concatenates the per-memory lists in order, extending each of the
five combined lists by the same count and preserving the internal order of
each source memory. -/
theorem C9_memory_parallel_lists (S A L : Type) (m : Memory S A L)
    (state : S) (action : A) (logprob : L) (reward : ℚ) (done : Bool)
    (memories : List (Memory S A L)) :
    ((m.push state action logprob reward done).states = m.states ++ [state] ∧
      (m.push state action logprob reward done).actions = m.actions ++ [action] ∧
      (m.push state action logprob reward done).logprobs = m.logprobs ++ [logprob] ∧
      (m.push state action logprob reward done).rewards = m.rewards ++ [reward] ∧
      (m.push state action logprob reward done).is_terminals
        = m.is_terminals ++ [done]) ∧
    (m.wf → (m.push state action logprob reward done).wf ∧
      (m.push state action logprob reward done).states.length
        = m.states.length + 1) ∧
    (m.clear_memory.states = [] ∧ m.clear_memory.actions = [] ∧
      m.clear_memory.logprobs = [] ∧ m.clear_memory.rewards = [] ∧
      m.clear_memory.is_terminals = []) ∧
    ((combine_memories memories).states = (memories.map Memory.states).flatten ∧
      (combine_memories memories).actions = (memories.map Memory.actions).flatten ∧
      (combine_memories memories).logprobs
        = (memories.map Memory.logprobs).flatten ∧
      (combine_memories memories).rewards = (memories.map Memory.rewards).flatten ∧
      (combine_memories memories).is_terminals
        = (memories.map Memory.is_terminals).flatten) ∧
    ((∀ mem ∈ memories, mem.wf) → (combine_memories memories).wf) := by
  obtain ⟨g1, g2, g3, g4, g5⟩ := combine_memories_fields memories
  refine ⟨⟨rfl, rfl, rfl, rfl, rfl⟩, ?_, ⟨rfl, rfl, rfl, rfl, rfl⟩,
    ⟨g2, g1, g3, g4, g5⟩, combine_memories_wf memories⟩
  rintro ⟨w1, w2, w3, w4⟩
  constructor
  · refine ⟨?_, ?_, ?_, ?_⟩ <;> simp [Memory.push, w1, w2, w3, w4]
  · simp [Memory.push]

/-- Witness for C9 at a concrete input. -/
theorem C9_memory_parallel_lists_witness :
    (Memory.empty ℚ ℚ ℚ).wf ∧
    ((Memory.empty ℚ ℚ ℚ).push 1 2 3 4 true).wf :=
  ⟨⟨rfl, rfl, rfl, rfl⟩,
    ((C9_memory_parallel_lists ℚ ℚ ℚ (Memory.empty ℚ ℚ ℚ) 1 2 3 4 true []).2.1
      ⟨rfl, rfl, rfl, rfl⟩).1⟩

/-- Fragment of PPO.update (ppo_alg.py lines 134-157) that decides the
advantage and return sequences: combine the incoming memories, compute
advantages with compute_gae over the combined rewards and terminal flags
together with the critic values (one per combined state, supplied here as an
opaque input), and set returns = advantages + values elementwise. -/
def update_gae_returns {S A L : Type} (gamma gae_lambda : ℚ) (values : List ℚ)
    (memories : List (Memory S A L)) : List ℚ × List ℚ :=
  let combined_memory := combine_memories memories
  let advantages := compute_gae gamma gae_lambda combined_memory.rewards values
    combined_memory.is_terminals
  (advantages, advantages.zipWith (· + ·) values)

/-- C6: for every reward, value and terminal input, the returns computed by
PPO.update equal advantage + value elementwise, and the number of advantage
values and of return values each equals the number of combined Transitions
in the batch. -/
theorem C6_returns_eq_advantage_plus_value (S A L : Type)
    (gamma gae_lambda : ℚ) (values : List ℚ)
    (memories : List (Memory S A L))
    (hwf : ∀ m ∈ memories, m.wf)
    (hv : values.length = (combine_memories memories).states.length) :
    (update_gae_returns gamma gae_lambda values memories).1.length
        = (combine_memories memories).states.length ∧
      (update_gae_returns gamma gae_lambda values memories).2.length
        = (combine_memories memories).states.length ∧
      ∀ i, i < (combine_memories memories).states.length →
        (update_gae_returns gamma gae_lambda values memories).2.getD i 0
          = (update_gae_returns gamma gae_lambda values memories).1.getD i 0
            + values.getD i 0 := by
  obtain ⟨_, _, hr, _⟩ := combine_memories_wf memories hwf
  simp only [update_gae_returns]
  have hL : (compute_gae gamma gae_lambda (combine_memories memories).rewards values
      (combine_memories memories).is_terminals).length
      = (combine_memories memories).states.length := by
    rw [compute_gae_length, hr]
  refine ⟨hL, ?_, fun i hi => ?_⟩
  · rw [List.length_zipWith, hL, hv, Nat.min_self]
  · have h2 : i < (List.zipWith (· + ·)
        (compute_gae gamma gae_lambda (combine_memories memories).rewards values
          (combine_memories memories).is_terminals) values).length := by
      rw [List.length_zipWith, hL, hv, Nat.min_self]; exact hi
    rw [List.getD_eq_getElem _ _ h2, List.getElem_zipWith,
      List.getD_eq_getElem _ _ (by rw [hL]; exact hi),
      List.getD_eq_getElem _ _ (by rw [hv]; exact hi)]

/-- Witness for C6 at a concrete input: two one-step memories. -/
theorem C6_returns_eq_advantage_plus_value_witness :
    (update_gae_returns (1/2) (1/2) [3, 4]
        [Memory.mk [1] [1] [1] [5] [true], Memory.mk [2] [2] [2] [6] [false]]).1.length
      = (combine_memories
          [(Memory.mk [1] [1] [1] [5] [true] : Memory ℚ ℚ ℚ),
            Memory.mk [2] [2] [2] [6] [false]]).states.length :=
  (C6_returns_eq_advantage_plus_value ℚ ℚ ℚ (1/2) (1/2) [3, 4]
    [Memory.mk [1] [1] [1] [5] [true], Memory.mk [2] [2] [2] [6] [false]]
    (by intro m hm
        simp only [List.mem_cons, List.not_mem_nil, or_false] at hm
        rcases hm with rfl | rfl <;> exact ⟨rfl, rfl, rfl, rfl⟩)
    rfl).1

/-- State of the PPO object relevant to learning-rate annealing: the fixed
initial learning rate (ppo_alg.py line 79), the current learning rate of
the optimizer (one shared value standing for every parameter group), and the
optionally configured total number of iterations, initialised to None in the
constructor (ppo_alg.py line 81) and assigned later by train
(ppo_run.py line 485). -/
structure AnnealState where
  initial_lr : ℚ
  optimizer_lr : ℚ
  total_iterations : Option ℕ

/-- Shallow embedding of PPO.update_learning_rate (ppo_alg.py lines 83-95).
A raised Python exception is modelled by returning none together with the
state as it is at the raise: the ValueError on an unset total_iterations is
raised before any mutation of the optimizer, and a zero total_iterations
would abort in the division, likewise before any mutation.  On success the
optimizer learning rate is overwritten and the new rate returned. -/
def update_learning_rate (st : AnnealState) (iteration : ℕ) :
    AnnealState × Option ℚ :=
  match st.total_iterations with
  | none => (st, none)
  | some total =>
    if total = 0 then (st, none)
    else
      let frac : ℚ := 1 - (iteration : ℚ) / (total : ℚ)
      let new_lr := frac * st.initial_lr
      ({ st with optimizer_lr := new_lr }, some new_lr)

/-- C7: with total_iterations configured to a positive total and a
nonnegative initial rate, update_learning_rate at iteration i produces
lr(i) = (1 - i/total) * initial_lr; hence lr(0) = initial_lr,
lr(total) = 0, and the produced rate is monotonically non-increasing in the
iteration index. -/
theorem C7_lr_linear_decay (st : AnnealState) (total i j : ℕ)
    (htot : st.total_iterations = some total) (h0 : 0 < total)
    (hlr : 0 ≤ st.initial_lr) (hij : i ≤ j) (hj : j ≤ total) :
    (update_learning_rate st i).2
        = some ((1 - (i : ℚ) / (total : ℚ)) * st.initial_lr) ∧
      (update_learning_rate st 0).2 = some st.initial_lr ∧
      (update_learning_rate st total).2 = some (0 : ℚ) ∧
      (update_learning_rate st j).1.optimizer_lr
        ≤ (update_learning_rate st i).1.optimizer_lr := by
  have hne : total ≠ 0 := by omega
  have hpos : (0 : ℚ) < (total : ℚ) := by exact_mod_cast h0
  refine ⟨?_, ?_, ?_, ?_⟩
  · simp [update_learning_rate, htot, hne]
  · simp [update_learning_rate, htot, hne]
  · simp [update_learning_rate, htot, hne, div_self (ne_of_gt hpos)]
  · simp only [update_learning_rate, htot, if_neg hne]
    apply mul_le_mul_of_nonneg_right _ hlr
    have hcast : (i : ℚ) ≤ (j : ℚ) := by exact_mod_cast hij
    have hle : (i : ℚ) / (total : ℚ) ≤ (j : ℚ) / (total : ℚ) :=
      (div_le_div_iff_of_pos_right hpos).mpr hcast
    linarith

/-- Witness for C7 at a concrete input. -/
theorem C7_lr_linear_decay_witness :
    (update_learning_rate ⟨3, 3, some 5⟩ 2).2 =
      some ((1 - (2 : ℚ) / (5 : ℚ)) * (3 : ℚ)) :=
  (C7_lr_linear_decay ⟨3, 3, some 5⟩ 5 2 4 rfl (by omega) (by norm_num)
    (by omega) (by omega)).1

/-- C8: invoking update_learning_rate while total_iterations is still unset
fails by signalling an error, and the failed call leaves the whole anneal
state, in particular the learning rate of the optimizer, unchanged. -/
theorem C8_lr_fail_fast_unset (st : AnnealState) (iteration : ℕ)
    (h : st.total_iterations = none) :
    (update_learning_rate st iteration).2 = none ∧
      (update_learning_rate st iteration).1 = st ∧
      (update_learning_rate st iteration).1.optimizer_lr = st.optimizer_lr := by
  simp [update_learning_rate, h]

/-- Witness for C8 at a concrete input. -/
theorem C8_lr_fail_fast_unset_witness :
    (update_learning_rate ⟨3, 7, none⟩ 4).2 = none :=
  (C8_lr_fail_fast_unset ⟨3, 7, none⟩ 4 rfl).1

/-- State of the collection loop of the coordinator (ppo_run.py lines 489-538)
restricted to what decides update timing: the running action_timesteps
counter (never reset), the sizes of the memories accumulated since the last
update (all_memories), and the record of counter values at which an update
was invoked. -/
structure CoordState where
  action_timesteps : ℕ
  all_memories : List ℕ
  updates : List ℕ

/-- One received memory flush in the coordinator loop (ppo_run.py lines
517-538): append the memory, add its size to action_timesteps, and if the
counter is now an exact multiple of lower_update_freq, invoke the update
and clear the accumulated memories. -/
def coord_step (lower_update_freq : ℕ) (st : CoordState) (size : ℕ) :
    CoordState :=
  let t := st.action_timesteps + size
  if t % lower_update_freq = 0 then
    { action_timesteps := t, all_memories := [],
      updates := st.updates ++ [t] }
  else
    { action_timesteps := t, all_memories := st.all_memories ++ [size],
      updates := st.updates }

/-- The collection loop of the coordinator over the sequence of memory
flush sizes of a run, starting from a zero counter with nothing
accumulated. -/
def coord_run (lower_update_freq : ℕ) (flushes : List ℕ) : CoordState :=
  flushes.foldl (coord_step lower_update_freq) ⟨0, [], []⟩

/-- Running prefix sums of a list of flush sizes, starting from the counter
value c: the counter values taken by action_timesteps after each flush. -/
def prefix_sums_from (c : ℕ) : List ℕ → List ℕ
  | [] => []
  | s :: rest => (c + s) :: prefix_sums_from (c + s) rest

theorem coord_run_foldl (lower_update_freq : ℕ) (flushes : List ℕ)
    (st : CoordState) :
    (flushes.foldl (coord_step lower_update_freq) st).updates =
      st.updates ++ (prefix_sums_from st.action_timesteps flushes).filter
        (fun t => t % lower_update_freq == 0) := by
  induction flushes generalizing st with
  | nil => simp [prefix_sums_from]
  | cons s rest ih =>
    simp only [List.foldl_cons, prefix_sums_from, List.filter_cons]
    by_cases h : (st.action_timesteps + s) % lower_update_freq = 0
    · rw [show coord_step lower_update_freq st s =
          ⟨st.action_timesteps + s, [], st.updates ++ [st.action_timesteps + s]⟩
          from by simp [coord_step, if_pos h]]
      rw [ih]
      simp [h]
    · rw [show coord_step lower_update_freq st s =
          ⟨st.action_timesteps + s, st.all_memories ++ [s], st.updates⟩
          from by simp [coord_step, if_neg h]]
      rw [ih]
      simp [h]

/-- Counterexample to C2: with update frequency 10 and flushes of sizes 6
and 6, the running counter moves from 6 to 12, crossing the multiple 10 of
the update frequency, yet the coordinator triggers no update at all,
because the code only updates when action_timesteps lands exactly on a
multiple (action_timesteps mod lower_update_freq equals 0,
ppo_run.py line 525). -/
theorem C2_crossing_counterexample :
    (coord_run 10 [6, 6]).updates = [] ∧
      (coord_run 10 [6, 6]).action_timesteps = 12 ∧
      prefix_sums_from 0 [6, 6] = [6, 12] ∧ 6 < 10 ∧ 10 < 12 := by
  refine ⟨rfl, rfl, rfl, by omega, by omega⟩

/-- C2 (amended): in the collection loop of the coordinator an update is invoked
exactly at those flushes after which the cumulative step counter is an
exact multiple of the configured update frequency; a flush that jumps over
a multiple without landing on it triggers no update.  In particular, with
threshold 10 and flushes of 6 then 4 steps, exactly one update is
triggered, exactly when the cumulative count reaches 10, and the
accumulated memories are cleared by it. -/
theorem C2_update_on_exact_multiples (lower_update_freq : ℕ)
    (flushes : List ℕ) (hfreq : 0 < lower_update_freq) :
    (coord_run lower_update_freq flushes).updates =
        (prefix_sums_from 0 flushes).filter
          (fun t => t % lower_update_freq == 0) ∧
      (coord_run 10 [6, 4]).updates = [10] ∧
      (coord_run 10 [6, 4]).all_memories = [] := by
  refine ⟨?_, rfl, rfl⟩
  have h := coord_run_foldl lower_update_freq flushes ⟨0, [], []⟩
  simpa using h

/-- Witness for C2 (amended) at a concrete input. -/
theorem C2_update_on_exact_multiples_witness :
    (coord_run 10 [6, 4]).updates =
      (prefix_sums_from 0 [6, 4]).filter (fun t => t % 10 == 0) :=
  (C2_update_on_exact_multiples 10 [6, 4] (by omega)).1

/-- Outcome of one decision step attempt by a rollout worker: either the
policy query and environment step succeed, yielding done and truncated
flags, or one of the two calls raises an unexpected error. -/
inductive StepOutcome where
  | ok (done truncated : Bool)
  | err
deriving DecidableEq

/-- The rollout worker loop (ppo_run.py lines 285-318), restricted to its
queue protocol.  Messages are pairs of the worker rank and either the size
of a flushed memory (some size, modelling queue.put of (rank, local_memory))
or the sentinel none (modelling queue.put of (rank, None)).  The loop walks
the per-step outcomes (one per iteration of the bounded for loop); on ok it
appends to the local memory and flushes when steps_since_update reaches
memory_transfer_freq or the episode ends, breaking on episode end; after
the loop ends, normally, the sentinel is sent.  On err the exception
propagates out of the worker function: the messages emitted so far stand,
no sentinel is ever sent, and the crashed flag is true. -/
def worker_go (rank memory_transfer_freq : ℕ) :
    List StepOutcome → ℕ → ℕ → List (ℕ × Option ℕ) →
      List (ℕ × Option ℕ) × Bool
  | [], _, _, msgs => (msgs ++ [(rank, none)], false)
  | StepOutcome.err :: _, _, _, msgs => (msgs, true)
  | StepOutcome.ok done truncated :: rest, local_size, steps_since_update,
      msgs =>
    let local_size1 := local_size + 1
    let steps1 := steps_since_update + 1
    if memory_transfer_freq ≤ steps1 ∨ done = true ∨ truncated = true then
      let msgs1 := msgs ++ [(rank, some local_size1)]
      if done = true ∨ truncated = true then (msgs1 ++ [(rank, none)], false)
      else worker_go rank memory_transfer_freq rest 0 0 msgs1
    else worker_go rank memory_transfer_freq rest local_size1 steps1 msgs

/-- A rollout worker run: start with an empty local memory and zero step
counter; the outcome list has one entry per permitted loop iteration
(total_action_timesteps_per_episode entries). -/
def worker_run (rank memory_transfer_freq : ℕ)
    (outcomes : List StepOutcome) : List (ℕ × Option ℕ) × Bool :=
  worker_go rank memory_transfer_freq outcomes 0 0 []

/-- C4 exhibit: a worker whose very first environment interaction raises
sends no message at all; in particular its sentinel (rank, none) is never
put on the queue, and the run ends in the crashed state.  A second
conjunct shows an error after one successful flushed step likewise
loses the sentinel while keeping the earlier flush message. -/
theorem C4_worker_error_drops_sentinel :
    worker_run 0 5 [StepOutcome.err] = ([], true) ∧
      ((0, (none : Option ℕ)) ∉ (worker_run 0 5 [StepOutcome.err]).1) ∧
      worker_run 3 1 [StepOutcome.ok false false, StepOutcome.err]
        = ([(3, some 1)], true) ∧
      ((3, (none : Option ℕ)) ∉
        (worker_run 3 1 [StepOutcome.ok false false, StepOutcome.err]).1) := by
  refine ⟨rfl, by simp [worker_run, worker_go], rfl, by
    simp [worker_run, worker_go]⟩

/-- The normal-termination side of the worker protocol: with no errors in
the outcome list, the last message sent is always the sentinel. -/
theorem worker_ok_sends_sentinel (rank freq : ℕ) (outcomes : List StepOutcome)
    (hok : ∀ o ∈ outcomes, o ≠ StepOutcome.err) :
    (worker_run rank freq outcomes).2 = false ∧
      (worker_run rank freq outcomes).1.getLast? = some (rank, none) := by
  suffices h : ∀ (outcomes : List StepOutcome), (∀ o ∈ outcomes, o ≠ StepOutcome.err) →
      ∀ ls ss msgs, (worker_go rank freq outcomes ls ss msgs).2 = false ∧
        (worker_go rank freq outcomes ls ss msgs).1.getLast? = some (rank, none) by
    exact h outcomes hok 0 0 []
  intro outcomes hok2
  induction outcomes with
  | nil => intro ls ss msgs; simp [worker_go]
  | cons o rest ih =>
    intro ls ss msgs
    have hne := hok2 o (by simp)
    have hrest : ∀ o ∈ rest, o ≠ StepOutcome.err := fun x hx =>
      hok2 x (by simp [hx])
    cases o with
    | err => exact absurd rfl hne
    | ok done truncated =>
      simp only [worker_go]
      by_cases h1 : freq ≤ ss + 1 ∨ done = true ∨ truncated = true
      · rw [if_pos h1]
        by_cases h2 : done = true ∨ truncated = true
        · rw [if_pos h2]
          simp
        · rw [if_neg h2]
          exact ih hrest 0 0 _
      · rw [if_neg h1]
        exact ih hrest _ _ msgs

/-- The two policy parameter stores of the PPO object: the live policy
mutated by gradient steps and the snapshot policy_old used by workers for
importance sampling.  Parameter contents are opaque here, so the parameter
type is a type parameter. -/
structure PolicyPair (P : Type) where
  policy : P
  policy_old : P

/-- Trace of the optimization phase of PPO.update (ppo_alg.py lines
170-201): each minibatch gradient step of each of the K_epochs passes is an
opaque transformation of the live policy parameters; the list collects the
state of the two stores after every single gradient step, in order. -/
def grad_phase_trace {P : Type} : List (P → P) → PolicyPair P →
    List (PolicyPair P)
  | [], _ => []
  | f :: fs, st =>
    let st1 : PolicyPair P := { st with policy := f st.policy }
    st1 :: grad_phase_trace fs st1

/-- PPO.update restricted to its effect on the two parameter stores: run
all gradient steps on the live policy (the K_epochs by minibatch loop,
which never writes policy_old), then copy the new weights wholesale into
policy_old (ppo_alg.py line 209, policy_old.load_state_dict of
policy.state_dict). -/
def ppo_update_policies {P : Type} (steps : List (P → P))
    (st : PolicyPair P) : PolicyPair P :=
  let final := steps.foldl (fun p f => f p) st.policy
  { policy := final, policy_old := final }

theorem grad_phase_trace_policy_old {P : Type} (steps : List (P → P))
    (st : PolicyPair P) :
    ∀ s ∈ grad_phase_trace steps st, s.policy_old = st.policy_old := by
  induction steps generalizing st with
  | nil => intro s hs; simp [grad_phase_trace] at hs
  | cons f fs ih =>
    intro s hs
    simp only [grad_phase_trace, List.mem_cons] at hs
    rcases hs with rfl | hs
    · rfl
    · exact ih ⟨f st.policy, st.policy_old⟩ s hs

theorem grad_phase_trace_last_policy {P : Type} (steps : List (P → P))
    (st : PolicyPair P) :
    ((grad_phase_trace steps st).getLastD st).policy =
      steps.foldl (fun p f => f p) st.policy := by
  induction steps generalizing st with
  | nil => rfl
  | cons f fs ih =>
    simp only [grad_phase_trace, List.getLastD_cons, List.foldl_cons]
    exact ih _

/-- C5: during a single call to PPO.update the snapshot policy_old is not
mutated at any point of the K_epochs of minibatch gradient steps (every
intermediate state carries the unchanged snapshot); only after all steps
have completed is the snapshot overwritten wholesale with the current
policy parameters, so after update returns the snapshot equals the current
policy, which is the fold of all gradient steps over the initial live
policy, and the snapshot never holds a mixed old/new state: its value is
either the initial snapshot or the final policy. -/
theorem C5_snapshot_atomic_publish (P : Type) (steps : List (P → P))
    (st : PolicyPair P) :
    (∀ s ∈ grad_phase_trace steps st, s.policy_old = st.policy_old) ∧
      (ppo_update_policies steps st).policy_old
        = (ppo_update_policies steps st).policy ∧
      (ppo_update_policies steps st).policy
        = steps.foldl (fun p f => f p) st.policy ∧
      ((grad_phase_trace steps st).getLastD st).policy
        = (ppo_update_policies steps st).policy :=
  ⟨grad_phase_trace_policy_old steps st, rfl, rfl,
    grad_phase_trace_last_policy steps st⟩

/-- Witness for C5 at a concrete input. -/
theorem C5_snapshot_atomic_publish_witness :
    (PolicyPair.mk (3 : ℚ) 5).policy_old = (PolicyPair.mk (2 : ℚ) 5).policy_old :=
  (C5_snapshot_atomic_publish ℚ [fun p => p + 1] ⟨2, 5⟩).1 ⟨3, 5⟩
    (by norm_num [grad_phase_trace])

end UrbanPPO
